import Mathlib

/-!
Verification development for the spring-visualizer extractor.

The Rust sources (annotation.rs, bean.rs, class.rs, autowired.rs,
component_type.rs) are shallowly embedded below.  Input text is modelled as
`List Char`; every nom parser of type `IResult<&str, T>` becomes a function
`List Char → Option (T × List Char)` returning the parsed value and the
remaining input (nom's error details are collapsed to `none`; the
Error/Failure distinction is irrelevant here because the combinators that
swallow errors — many0, opt, separated_list0 — are only ever applied to
parsers that produce plain errors).

Naming: the Rust names are kept wherever Lean's lexer allows; `Annotation`,
`AnnotationArg`, `AnnotationArgs` and `parse_annotation` are shortened to
`Annot`, `AnnotArg`, `AnnotArgs`, `parse_annot`, and the Rust field `class`
(a Lean keyword) becomes `cls`.
-/

namespace SV

/-- The character `"` (byte 34). -/
def qMark : Char := Char.ofNat 34

/-- The character `(` (byte 40). -/
def lPar : Char := Char.ofNat 40

/-- The character `)` (byte 41). -/
def rPar : Char := Char.ofNat 41

/-- The character `{` (byte 123). -/
def lBr : Char := Char.ofNat 123

/-- The character `}` (byte 125). -/
def rBr : Char := Char.ofNat 125

/-- The character `;` (byte 59). -/
def semiC : Char := Char.ofNat 59

/-- The character `,` (byte 44). -/
def commaC : Char := Char.ofNat 44

/-- The character `=` (byte 61). -/
def eqC : Char := Char.ofNat 61

/-- The character `@` (byte 64). -/
def atC : Char := Char.ofNat 64

/-- The character ` ` (byte 32). -/
def spC : Char := Char.ofNat 32

/-- The character tab (byte 9). -/
def tabC : Char := Char.ofNat 9

/-- Rust `str::find(&str)`: index of the first occurrence of `needle`
(here: first index `i` such that `needle` is a prefix of `hay.drop i`). -/
def findSub (needle : List Char) : List Char → Option Nat
  | [] => if needle.isPrefixOf ([] : List Char) then some 0 else none
  | c :: rest =>
    if needle.isPrefixOf (c :: rest) then some 0
    else (findSub needle rest).map (· + 1)

/-- nom `tag(t)`: consume the literal `t` or fail. -/
def tagP (t : List Char) (s : List Char) : Option (List Char × List Char) :=
  if t.isPrefixOf s then some (t, s.drop t.length) else none

/-- nom `char(c)`: consume exactly the character `c` or fail. -/
def charP (c : Char) (s : List Char) : Option (Unit × List Char) :=
  match s with
  | [] => none
  | x :: r => if x = c then some ((), r) else none

/-- nom `take_while(p)` (complete): never fails, consumes the longest
prefix satisfying `p`. -/
def takeWhileF (p : Char → Bool) (s : List Char) : List Char × List Char :=
  (s.takeWhile p, s.dropWhile p)

/-- nom `is_not(set)` for a one-character set: consumes one or more
characters different from `bad`, failing when it would consume none. -/
def isNot1 (bad : Char) (s : List Char) : Option (List Char × List Char) :=
  let t := s.takeWhile (fun c => ¬ (c = bad))
  if t.isEmpty then none else some (t, s.dropWhile (fun c => ¬ (c = bad)))

/-- nom `take_until(t)`: consumes everything before the first occurrence
of `t`, failing when `t` never occurs; `t` itself is left unconsumed. -/
def takeUntilP (t : List Char) (s : List Char) : Option (List Char × List Char) :=
  (findSub t s).map (fun p => (s.take p, s.drop p))

/-- nom `multispace0`: drops leading spaces, tabs, carriage returns and
newlines (exactly the characters of `Char.isWhitespace`). -/
def ms0 (s : List Char) : List Char := s.dropWhile Char.isWhitespace

/-- Predicate of nom `space0`: space or tab. -/
def isSpTab (c : Char) : Bool := c = spC ∨ c = tabC

/-- nom `space0`: drops leading spaces and tabs only. -/
def sp0 (s : List Char) : List Char := s.dropWhile isSpTab

/-- nom `opt(tag(t))` as a total input transformer. -/
def optTag (t : List Char) (s : List Char) : List Char :=
  match tagP t s with
  | some (_, r) => r
  | none => s

/-- nom `opt(char(c))` as a total input transformer. -/
def optChar (c : Char) (s : List Char) : List Char :=
  match charP c s with
  | some (_, r) => r
  | none => s

/-- nom `alphanumeric1`: one or more ASCII alphanumeric characters. -/
def alnum1 (s : List Char) : Option (List Char × List Char) :=
  let t := s.takeWhile Char.isAlphanum
  if t.isEmpty then none else some (t, s.dropWhile Char.isAlphanum)

/-- Rust `str::trim_start_matches(c)` : drop every leading `c`. -/
def dropStartMatches (c : Char) (s : List Char) : List Char :=
  s.dropWhile (fun x => x = c)

/-- Rust `str::trim_end_matches(c)` : drop every trailing `c`. -/
def dropEndMatches (c : Char) (s : List Char) : List Char :=
  (s.reverse.dropWhile (fun x => x = c)).reverse

/-- Rust `str::trim` (restricted to ASCII whitespace, which is all the
sources ever produce). -/
def trimBoth (s : List Char) : List Char :=
  ((s.dropWhile Char.isWhitespace).reverse.dropWhile Char.isWhitespace).reverse

/-- Rust `str::split(c)`: at least one piece, empty pieces kept. -/
def rustSplit (c : Char) : List Char → List (List Char)
  | [] => [[]]
  | x :: r =>
    if x = c then [] :: rustSplit c r
    else
      match rustSplit c r with
      | [] => [[x]]
      | p :: ps => (x :: p) :: ps

/-- nom `many0(p)`, fuelled.  On inner success without consumption nom
aborts with an error (infinite-loop guard); that is mirrored here.  The
fuel `s.length + 1` of `many0P` is always sufficient because every
successful inner parse consumes at least one character (otherwise the
guard fires). -/
def many0F {α : Type} (p : List Char → Option (α × List Char)) :
    Nat → List Char → Option (List α × List Char)
  | 0, _ => none
  | fuel+1, s =>
    match p s with
    | none => some ([], s)
    | some (a, s1) =>
      if s1.length = s.length then none
      else
        match many0F p fuel s1 with
        | none => none
        | some (as, s2) => some (a :: as, s2)

/-- nom `many0(p)` with its canonical fuel. -/
def many0P {α : Type} (p : List Char → Option (α × List Char))
    (s : List Char) : Option (List α × List Char) :=
  many0F p (s.length + 1) s

/-! ## annotation.rs -/

/-- `AnnotationArg` from annotation.rs: a parsed annotation value. -/
inductive AnnotArg : Type where
  | String : List Char → AnnotArg
  | Class : List Char → AnnotArg
  | Array : List AnnotArg → AnnotArg

/-- The literal `.class`. -/
def dotClass : List Char := String.data ".class"

/-- Separator parser of the array branch of `parse_arg`:
`tag(",")` followed by `space0`. -/
def sepComma (s : List Char) : Option (Unit × List Char) :=
  match tagP [commaC] s with
  | none => none
  | some (_, s1) => some ((), sp0 s1)

/-- Loop of nom `separated_list0(sep, f)` after the first element, fuelled.
On separator success without consumption nom aborts (guard); on element
failure after a separator, the input backtracks to before the separator. -/
def sepTailF {α : Type} (f : List Char → Option (α × List Char)) :
    Nat → List Char → Option (List α × List Char)
  | 0, _ => none
  | fuel+1, s =>
    match sepComma s with
    | none => some ([], s)
    | some (_, s1) =>
      if s1.length = s.length then none
      else
        match f s1 with
        | none => some ([], s)
        | some (a, s2) =>
          match sepTailF f fuel s2 with
          | none => none
          | some (as, s3) => some (a :: as, s3)

/-- nom `separated_list0(tag(",") >> space0, f)`. -/
def sepList0 {α : Type} (f : List Char → Option (α × List Char))
    (s : List Char) : Option (List α × List Char) :=
  match f s with
  | none => some ([], s)
  | some (a, s1) =>
    match sepTailF f (s1.length + 1) s1 with
    | none => none
    | some (as, r) => some (a :: as, r)

/-- `parse_arg` from annotation.rs, fuelled (the array branch recurses on
the text between the braces, which is at least two characters shorter than
the input, so the canonical fuel of `parse_arg` always suffices). -/
def parseArgF : Nat → List Char → Option (AnnotArg × List Char)
  | 0, _ => none
  | fuel+1, s =>
    if s.head? = some qMark then
      match charP qMark s with
      | none => none
      | some (_, s1) =>
        match isNot1 qMark s1 with
        | none => none
        | some (between, s2) =>
          match charP qMark s2 with
          | none => none
          | some (_, s3) => some (.String between, s3)
    else if s.head? = some lBr then
      match charP lBr s with
      | none => none
      | some (_, s1) =>
        match isNot1 rBr s1 with
        | none => none
        | some (between, s2) =>
          match charP rBr s2 with
          | none => none
          | some (_, s3) =>
            match sepList0 (parseArgF fuel) (between.dropWhile Char.isWhitespace) with
            | none => none
            | some (values, _) => some (.Array values, s3)
    else
      match takeUntilP dotClass s with
      | none => none
      | some (name, s1) =>
        match tagP dotClass s1 with
        | none => none
        | some (_, s2) => some (.Class name, s2)

/-- `parse_arg` from annotation.rs. -/
def parse_arg (s : List Char) : Option (AnnotArg × List Char) :=
  parseArgF (s.length + 1) s

/-- One iteration of the `many0` inside `parse_key_value_pairs`:
`identifier`, `space0`, `=`, `space0`, value, optional `,`, `space0`. -/
def kvpOne (s : List Char) : Option ((List Char × AnnotArg) × List Char) :=
  let (key, s1) := takeWhileF Char.isAlphanum s
  let s2 := sp0 s1
  match tagP [eqC] s2 with
  | none => none
  | some (_, s3) =>
    let s4 := sp0 s3
    match parse_arg s4 with
    | none => none
    | some (v, s5) =>
      let s6 := optTag [commaC] s5
      some ((key, v), sp0 s6)

/-- `parse_key_value_pairs` from annotation.rs.  The Rust code collects the
pairs into a `HashMap` (`collect`: on duplicate keys the last write wins);
the map is modelled as the insertion-ordered association list together with
the last-wins lookup `hmGet`. -/
def parse_key_value_pairs (s : List Char) :
    Option (List (List Char × AnnotArg) × List Char) :=
  many0P kvpOne s

/-- Last-wins lookup in the association-list model of the Rust `HashMap`. -/
def hmGet (k : List Char) : List (List Char × AnnotArg) → Option AnnotArg
  | [] => none
  | (k', v) :: rest =>
    match hmGet k rest with
    | some r => some r
    | none => if k' = k then some v else none

/-- `AnnotationArgs` from annotation.rs. -/
inductive AnnotArgs : Type where
  | Single : AnnotArg → AnnotArgs
  | Multi : List (List Char × AnnotArg) → AnnotArgs

/-- `parse_args` from annotation.rs: keyed when the raw text contains `=`
anywhere, single otherwise. -/
def parse_args (s : List Char) : Option (AnnotArgs × List Char) :=
  if s.contains eqC then
    match parse_key_value_pairs s with
    | some (m, r) => some (.Multi m, r)
    | none => none
  else
    match parse_arg s with
    | some (v, r) => some (.Single v, r)
    | none => none

/-- `Annotation` from annotation.rs. -/
structure Annot : Type where
  name : List Char
  args : AnnotArgs

/-- `Annotation::value` from annotation.rs. -/
def Annot.value (a : Annot) : Option AnnotArg :=
  match a.args with
  | .Single v => some v
  | .Multi m => hmGet (String.data "value") m

/-- `parse_annotation` from annotation.rs. -/
def parse_annot (s : List Char) : Option (Annot × List Char) :=
  match tagP [atC] s with
  | none => none
  | some (_, s1) =>
    let (name, s2) := takeWhileF Char.isAlphanum s1
    let s3 := ms0 s2
    if s3.head? = some lPar then
      match charP lPar s3 with
      | none => none
      | some (_, s4) =>
        match isNot1 rPar s4 with
        | none => none
        | some (between, s5) =>
          match charP rPar s5 with
          | none => none
          | some (_, s6) =>
            match parse_args between with
            | none => none
            | some (args, _) => some (⟨name, args⟩, ms0 s6)
    else
      some (⟨name, .Multi []⟩, s3)

/-! ## bean.rs -/

/-- `Parameter` from bean.rs (the Rust field `class` becomes `cls`). -/
structure Parameter : Type where
  cls : List Char
  name : List Char

/-- `Parameter::from_str` from bean.rs: trim, then a maximal alphanumeric
run (`class`), whitespace, a second maximal alphanumeric run (`name`).
All three nom steps are complete parsers that cannot fail, so the
`FromStr` implementation always returns `Ok`. -/
def Parameter.fromStr (s : List Char) : Option Parameter :=
  let t := trimBoth s
  let (cls, r1) := takeWhileF Char.isAlphanum t
  let r2 := ms0 r1
  let (name, _) := takeWhileF Char.isAlphanum r2
  some ⟨cls, name⟩

/-- `Bean` from bean.rs. -/
structure Bean : Type where
  name : List Char
  cls : List Char
  parameters : List Parameter

/-- The `filter_map` closure inside `parse_bean` that decodes one
parameter entry (same infallible shape as `Parameter::from_str`). -/
def beanParamOf (d : List Char) : Option Parameter :=
  let t := trimBoth d
  let (cls, r1) := takeWhileF Char.isAlphanum t
  let r2 := ms0 r1
  let (name, _) := takeWhileF Char.isAlphanum r2
  some ⟨cls, name⟩

/-- The part of `parse_bean` (bean.rs) that follows the marker annotation:
optional visibility keyword, return type, method name, `(`, parameter
text up to `)`, split on commas.  Returns `(return type, method name,
parameters)` and the remaining input. -/
def parseBeanTail (s : List Char) :
    Option ((List Char × List Char × List Parameter) × List Char) :=
  let s1 := optTag (String.data "public") s
  let s2 := optTag (String.data "protected") s1
  let s3 := optTag (String.data "private") s2
  let s4 := sp0 s3
  let (cls, s5) := takeWhileF Char.isAlphanum s4
  let s6 := ms0 s5
  let (mname, s7) := takeWhileF Char.isAlphanum s6
  match tagP [lPar] s7 with
  | none => none
  | some (_, s8) =>
    let s9 := ms0 s8
    let (praw, s10) := takeWhileF (fun c => ¬ (c = rPar)) s9
    let params0 := trimBoth (dropEndMatches rPar praw)
    let params :=
      if params0.isEmpty then []
      else (rustSplit commaC (dropEndMatches rPar params0)).filterMap beanParamOf
    some ((cls, mname, params), s10)

/-- The name-override logic of `parse_bean` (bean.rs lines 106-109 and
113): the annotation's value when it is a string literal, otherwise the
method's own name. -/
def beanName (v : Option AnnotArg) (mname : List Char) : List Char :=
  match v with
  | some (.String n) => n
  | _ => mname

/-- `parse_bean` from bean.rs: marker annotation, then the method header;
the bean's name is the annotation's string value when present, otherwise
the method name. -/
def parse_bean (s : List Char) : Option (Bean × List Char) :=
  match parse_annot s with
  | none => none
  | some (ann, s1) =>
    match parseBeanTail s1 with
    | none => none
    | some ((cls, mname, params), s2) =>
      some (⟨beanName ann.value mname, cls, params⟩, s2)

/-! ## autowired.rs and component_type.rs -/

/-- `Autowired` from autowired.rs. -/
structure Autowired : Type where
  name : List Char
  cls : List Char

/-- `ComponentType` from component_type.rs. -/
inductive ComponentType : Type where
  | SpringBootApplication
  | Configuration
  | Controller
  | Service
  | Repository
  | Component
deriving DecidableEq

/-! ## class.rs -/

/-- `Class` from class.rs (the derive_builder defaults are the empty
values supplied in `parse_class` below). -/
structure Class : Type where
  package : List Char
  component_type : Option ComponentType
  imports : List (List Char)
  component_scans : List (List Char)
  name : List Char
  parameters : List Parameter
  autowires : List Autowired
  bean_defs : List Bean
  interfaces : List (List Char)

/-- `parse_constructor` from class.rs: locate `<name>(`, strip the leading
parentheses, take everything up to `)` and split it on commas, keeping
every entry `Parameter::from_str` accepts (which is all of them). -/
def parse_constructor (class_name body : List Char) : Option (List Parameter) :=
  match findSub (class_name ++ [lPar]) body with
  | none => none
  | some pos =>
    let b1 := (body.drop pos).drop class_name.length
    let b2 := dropStartMatches lPar b1
    let (praw, _) := takeWhileF (fun c => ¬ (c = rPar)) b2
    let params0 := trimBoth (dropEndMatches rPar praw)
    some
      (if params0.isEmpty then []
       else (rustSplit commaC (dropEndMatches rPar params0)).filterMap Parameter.fromStr)

/-- The component-type match of `parse_class` (class.rs lines 160-171):
which `ComponentType` an annotation name sets, if any. -/
def markerOf (a : Annot) : Option ComponentType :=
  if a.name = String.data "SpringBootApplication" then some .SpringBootApplication
  else if a.name = String.data "Configuration" then some .Configuration
  else if a.name = String.data "Controller" then some .Controller
  else if a.name = String.data "RestController" then some .Controller
  else if a.name = String.data "Service" then some .Service
  else if a.name = String.data "Repository" then some .Repository
  else if a.name = String.data "Component" then some .Component
  else none

/-- One step of the class-level annotation loop of `parse_class`:
builder state is `(component_type, imports, component_scans)`; each
relevant annotation overwrites the corresponding field. -/
def annFold (package : List Char)
    (st : Option ComponentType × List (List Char) × List (List Char))
    (a : Annot) : Option ComponentType × List (List Char) × List (List Char) :=
  let impsScans :=
    if a.name = String.data "Import" then
      match a.value with
      | some (.Class c) => ([c], st.2.2)
      | some (.Array vs) =>
        (vs.filterMap (fun v => match v with | .Class c => some c | _ => none), st.2.2)
      | _ => st.2
    else if a.name = String.data "SpringBootApplication" then (st.2.1, [package])
    else if a.name = String.data "ComponentScan" then
      match a.value with
      | some (.String p) => (st.2.1, [p])
      | some (.Array vs) =>
        if vs.isEmpty then (st.2.1, [package])
        else (st.2.1, vs.filterMap (fun v => match v with | .String p => some p | _ => none))
      | _ => st.2
    else st.2
  (match markerOf a with | some t => some t | none => st.1, impsScans)

/-- Folding the annotation loop of `parse_class` over all class-level
annotations, starting from the builder defaults. -/
def processAnns (package : List Char) (anns : List Annot) :
    Option ComponentType × List (List Char) × List (List Char) :=
  anns.foldl (annFold package) (none, [], [])

/-- The package stage of `parse_class` (class.rs lines 100-107): locate
`package`, then `delimited(tag("package"), is_not(";"), char(';'))`, and
trim the text in between. -/
def pkgStage (input : List Char) : Option (List Char × List Char) :=
  match findSub (String.data "package") input with
  | none => none
  | some pos =>
    let s := input.drop pos
    match tagP (String.data "package") s with
    | none => none
    | some (_, s1) =>
      match isNot1 semiC s1 with
      | none => none
      | some (between, s2) =>
        match charP semiC s2 with
        | none => none
        | some (_, s3) => some (trimBoth between, s3)

/-- The class-level annotation stage of `parse_class` (class.rs lines
110-113): if a `@` occurs anywhere, jump to it and run
`many0(parse_annotation)`; otherwise the input is left untouched. -/
def annStage (s : List Char) : Option (List Annot × List Char) :=
  match findSub [atC] s with
  | none => some ([], s)
  | some pos => many0P parse_annot (s.drop pos)

/-- The class-level annotations `parse_class` collects for an input
(empty when the earlier stages fail). -/
def classAnns (input : List Char) : List Annot :=
  match pkgStage input with
  | none => []
  | some (_, s) =>
    match annStage s with
    | some (anns, _) => anns
    | none => []

/-- The interfaces stage of `parse_class` (class.rs lines 184-195): after
`implements`, skip whitespace, take one maximal alphanumeric run, split it
on commas (the run can no longer contain a comma) and trim each piece. -/
def ifaceStage (s : List Char) : List (List Char) :=
  match findSub (String.data "implements") s with
  | none => []
  | some pos =>
    let t := ms0 (s.drop (pos + 10))
    let (run, _) := takeWhileF Char.isAlphanum t
    (rustSplit commaC run).map trimBoth

/-- `delimited(multispace0, parse_annotation, multispace0)` used inside
the autowired loop of `parse_class`. -/
def annSandwich (s : List Char) : Option (Annot × List Char) :=
  match parse_annot (ms0 s) with
  | none => none
  | some (a, s2) => some (a, ms0 s2)

/-- The `@Autowired` loop of `parse_class` (class.rs lines 204-224),
fuelled: find the next `@Autowired`, consume it, skip decorated
annotations and whitespace, read a type and a field identifier, and an
optional `;`.  A malformed occurrence fails the whole extraction.  Every
iteration consumes at least the marker, so fuel `s.length + 1` suffices. -/
def autowireLoop : Nat → List Char → Option (List Autowired)
  | 0, _ => none
  | fuel+1, s =>
    match findSub (String.data "@Autowired") s with
    | none => some []
    | some pos =>
      match tagP (String.data "@Autowired") (s.drop pos) with
      | none => none
      | some (_, s1) =>
        match many0P annSandwich s1 with
        | none => none
        | some (_, s2) =>
          match alnum1 (ms0 s2) with
          | none => none
          | some (cls, s4) =>
            match alnum1 (ms0 s4) with
            | none => none
            | some (nm, s6) =>
              match autowireLoop fuel (optChar semiC s6) with
              | none => none
              | some rest => some (⟨nm, cls⟩ :: rest)

/-- The `@Bean` loop of `parse_class` (class.rs lines 227-234), fuelled:
find the next `@Bean`, run `parse_bean` there (failure aborts the
extraction), continue after it. -/
def beanLoop : Nat → List Char → Option (List Bean)
  | 0, _ => none
  | fuel+1, s =>
    match findSub (String.data "@Bean") s with
    | none => some []
    | some pos =>
      match parse_bean (s.drop pos) with
      | none => none
      | some (b, s1) =>
        match beanLoop fuel s1 with
        | none => none
        | some rest => some (b :: rest)

/-- `parse_class` from class.rs: package, class-level annotations, class
name, interfaces, constructor, autowired fields, beans.  On success the
remaining input is always `""`. -/
def parse_class (input : List Char) : Option (Class × List Char) :=
  match pkgStage input with
  | none => none
  | some (package, s1) =>
    match annStage s1 with
    | none => none
    | some (anns, s2) =>
      let pcs := processAnns package anns
      match findSub (String.data "class") s2 with
      | none => none
      | some cpos =>
        let s3 := ms0 (s2.drop (cpos + 5))
        let name := s3.takeWhile Char.isAlphanum
        let s5 := s3.dropWhile Char.isAlphanum
        let interfaces := ifaceStage s5
        let parameters :=
          match parse_constructor name s5 with
          | some ps => ps
          | none => []
        match autowireLoop (s5.length + 1) s5 with
        | none => none
        | some autos =>
          match beanLoop (s5.length + 1) s5 with
          | none => none
          | some beans =>
            some (⟨package, pcs.1, pcs.2.1, pcs.2.2, name, parameters, autos, beans,
                   interfaces⟩, [])

/-! ## Claim inputs -/

/-- The file text
`package a.b.c; @Component class Foo { @Autowired Bar bar; }`. -/
def c1input : List Char :=
  (String.data "package a.b.c; @Component class Foo ") ++
    lBr :: (String.data " @Autowired Bar bar; ") ++ [rBr]

/-- `needle` occurs as a contiguous substring of `hay`. -/
def containsStr (needle hay : List Char) : Prop :=
  ∃ pre post, hay = pre ++ needle ++ post

/-- C5 witness input: `package a; @Service @Component class Foo {}`. -/
def c5input : List Char :=
  (String.data "package a; @Service @Component class Foo ") ++ [lBr, rBr]

/-- C6 witness input:
`@Bean("newName") private MyBean myBean(FooBean fooBean)`. -/
def c6input : List Char :=
  (String.data "@Bean(") ++ qMark :: (String.data "newName") ++ qMark ::
    (String.data ") private MyBean myBean(FooBean fooBean)")

/-- C9 counterexample input:
`package a;class Foo implements IFoo, IBar {}`. -/
def c9input : List Char :=
  (String.data "package a;class Foo implements IFoo, IBar ") ++ [lBr, rBr]

/-- Rendering of one parsed array element back to source text, as the
round-trip property prescribes: string literals re-quoted, type
references re-suffixed with `.class`.  A successfully parsed array never
contains a nested array (the text between `{` and `}` cannot contain `}`,
so an inner array can never close — proved in `parseArgF_no_array`), so
the `Array` case is irrelevant and renders as empty text. -/
def renderElem : AnnotArg → List Char
  | .String s => qMark :: s ++ [qMark]
  | .Class c => c ++ dotClass
  | .Array _ => []

/-- The separator `, ` used by the rendering. -/
def sep2 : List Char := String.data ", "

/-- Comma-space-separated concatenation. -/
def joinSep (sep : List Char) : List (List Char) → List Char
  | [] => []
  | [x] => x
  | x :: y :: rest => x ++ sep ++ joinSep sep (y :: rest)

/-- The text after the first rendered element: `, ` and one more element,
repeatedly. -/
def renderTail (vs : List AnnotArg) : List Char :=
  match vs with
  | [] => []
  | v :: rest => sep2 ++ renderElem v ++ renderTail rest

/-- Rendering of a whole array value: the rendered elements,
comma-separated inside braces. -/
def renderList (vs : List AnnotArg) : List Char :=
  lBr :: joinSep sep2 (vs.map renderElem) ++ [rBr]

/-- Rendering of a whole annotation `@nm({v1, v2, ...})`. -/
def renderAnnot (nm : List Char) (vs : List AnnotArg) : List Char :=
  atC :: nm ++ lPar :: renderList vs ++ [rPar]

/-- Characters that may appear anywhere inside a reparseable payload:
not `}` (would end the array early), not `)` (would end the annotation
arguments early), not `=` (would switch the payload to keyed). -/
def okC (c : Char) : Prop := ¬ c = rBr ∧ ¬ c = rPar ∧ ¬ c = eqC

/-- What a successful array-element parse guarantees about the decoded
element, as needed for the element to render back to reparseable text. -/
def ElemOK : AnnotArg → Prop
  | .String s => s ≠ [] ∧ ∀ c ∈ s, ¬ c = qMark ∧ okC c
  | .Class c => (¬ containsStr dotClass c) ∧ (∀ x ∈ c, okC x) ∧
      (∀ x xs, c = x :: xs → ¬ x = qMark ∧ ¬ x = lBr ∧ ¬ isSpTab x = true)
  | .Array _ => False

/-- Extra guarantee for the first element of an array: its text cannot
start with any whitespace (the array contents are trimmed from the left
before the element list is parsed). -/
def Head1OK : AnnotArg → Prop
  | .Class c => ∀ x xs, c = x :: xs → ¬ x.isWhitespace = true
  | _ => True

/-- C8 witness input: `@MyAnnotation({"com.example", Foo.class})`. -/
def c8input : List Char :=
  (String.data "@MyAnnotation(") ++ lBr :: qMark :: (String.data "com.example") ++
    qMark :: (String.data ", Foo.class") ++ rBr :: [rPar]

/-! ## Claims -/

/-- C1: on `package a.b.c; @Component class Foo { @Autowired Bar bar; }`
class extraction succeeds with package `a.b.c`, kind `Component`, name
`Foo`, empty imports, component scans, constructor parameters, beans and
interfaces, and exactly one autowired field with type `Bar` and name
`bar`. -/
theorem claim_c1_extract :
    parse_class c1input =
      some (⟨String.data "a.b.c", some .Component, [], [], String.data "Foo", [],
             [⟨String.data "bar", String.data "Bar"⟩], [], []⟩, []) := by
  rfl

/-- C2: the code does not drop a constructor-parameter entry that lacks
its binding identifier.  On constructor text `Foo(Bar)` the entry `Bar`
has no binding identifier, yet `parse_constructor` keeps it, producing a
`Parameter` with type `Bar` and empty name (`Parameter::from_str` is
infallible, so the `filter_map` in `parse_constructor` never filters
anything). -/
theorem claim_c2_entry_kept :
    parse_constructor (String.data "Foo") (String.data "Foo(Bar)") =
      some [⟨String.data "Bar", []⟩] := by
  rfl

/-- C3 counterexample: parsing the value text `{}` (no characters between
the braces) fails — `is_not("}")` requires at least one character. -/
theorem claim_c3_counterexample : parse_arg [lBr, rBr] = none := by
  rfl

/-- C3 amended: parsing `{ }` (whitespace between the braces) succeeds
and yields the empty array; the strictly empty `{}` is a parse error. -/
theorem claim_c3_amended : parse_arg [lBr, spC, rBr] = some (.Array [], []) := by
  rfl

/-! ## Generic list lemmas -/

theorem takeWhile_append_not (p : Char → Bool) (l : List Char) (x : Char) (r : List Char)
    (hl : ∀ c ∈ l, p c = true) (hx : p x = false) :
    (l ++ x :: r).takeWhile p = l ∧ (l ++ x :: r).dropWhile p = x :: r := by
  induction l with
  | nil => simp [List.takeWhile_cons, List.dropWhile_cons, hx]
  | cons a t ih =>
    have ha := hl a (by simp)
    have ht : ∀ c ∈ t, p c = true := fun c hc => hl c (by simp [hc])
    obtain ⟨h1, h2⟩ := ih ht
    simp [List.takeWhile_cons, List.dropWhile_cons, ha, h1, h2]

/-- C10: an annotation whose parentheses are present but empty fails to
parse (because `is_not(")")` must consume at least one character), while
the same annotation without parentheses parses to an empty keyed payload. -/
theorem claim_c10_empty_parens (nm : List Char) (h : ∀ c ∈ nm, c.isAlphanum = true) :
    parse_annot (atC :: nm ++ [lPar, rPar]) = none ∧
    parse_annot (atC :: nm) = some (⟨nm, .Multi []⟩, []) := by
  constructor
  · have htag : tagP [atC] (atC :: nm ++ [lPar, rPar]) =
        some ([atC], nm ++ [lPar, rPar]) := by
      simp [tagP, List.isPrefixOf]
    obtain ⟨h1, h2⟩ :=
      takeWhile_append_not Char.isAlphanum nm lPar [rPar] h (by decide)
    unfold parse_annot
    simp only [htag]
    simp only [takeWhileF, h1, h2]
    rfl
  · have htag : tagP [atC] (atC :: nm) = some ([atC], nm) := by
      simp [tagP, List.isPrefixOf]
    have h1 : nm.takeWhile Char.isAlphanum = nm :=
      List.takeWhile_eq_self_iff.mpr (by simpa using h)
    have h2 : nm.dropWhile Char.isAlphanum = [] :=
      List.dropWhile_eq_nil_iff.mpr (by simpa using h)
    unfold parse_annot
    simp only [htag]
    simp only [takeWhileF, h1, h2]
    rfl

/-- C10 witness at the concrete name `Foo`. -/
theorem claim_c10_witness :
    (∀ c ∈ String.data "Foo", c.isAlphanum = true) ∧
    parse_annot (atC :: String.data "Foo" ++ [lPar, rPar]) = none ∧
    parse_annot (atC :: String.data "Foo") =
      some (⟨String.data "Foo", .Multi []⟩, []) :=
  ⟨by decide, (claim_c10_empty_parens (String.data "Foo") (by decide)).1,
    (claim_c10_empty_parens (String.data "Foo") (by decide)).2⟩

/-- C4: whenever payload parsing succeeds, a payload text containing `=`
anywhere yields a keyed payload, and one containing no `=` yields a
single payload produced by one `parse_arg` run over the whole text. -/
theorem claim_c4_payload_classification (s : List Char)
    (h : (parse_args s).isSome = true) :
    (s.contains eqC = true →
      ∃ m rest, parse_args s = some (.Multi m, rest)) ∧
    (s.contains eqC = false →
      ∃ v rest, parse_args s = some (.Single v, rest) ∧
        parse_arg s = some (v, rest)) := by
  constructor
  · intro hc
    unfold parse_args at h ⊢
    rw [hc] at h ⊢
    simp only [if_true] at h ⊢
    cases hkv : parse_key_value_pairs s with
    | none => rw [hkv] at h; simp at h
    | some pr => obtain ⟨m, r⟩ := pr; exact ⟨m, r, rfl⟩
  · intro hc
    unfold parse_args at h ⊢
    rw [hc] at h ⊢
    simp only [Bool.false_eq_true, if_false] at h ⊢
    cases hv : parse_arg s with
    | none => rw [hv] at h; simp at h
    | some pr => obtain ⟨v, r⟩ := pr; exact ⟨v, r, rfl, rfl⟩

/-- C4 witness at the keyed payload `k=v.class`. -/
theorem claim_c4_witness :
    ((parse_args (String.data "k=v.class")).isSome = true) ∧
    ((String.data "k=v.class").contains eqC = true) ∧
    (∃ m rest, parse_args (String.data "k=v.class") = some (.Multi m, rest)) :=
  ⟨rfl, rfl,
    (claim_c4_payload_classification (String.data "k=v.class") rfl).1 rfl⟩

/-! ## Inversion lemmas for the combinators and parse_class -/

theorem someInj {a b : Type} {x u : a} {y v : b}
    (h : (some (x, y) : Option (a × b)) = some (u, v)) : x = u ∧ y = v := by
  simpa using h

theorem tagP_eq_some {t s : List Char} {v r : List Char}
    (h : tagP t s = some (v, r)) : v = t ∧ r = s.drop t.length := by
  unfold tagP at h
  split at h
  · obtain ⟨h1, h2⟩ := someInj h
    exact ⟨h1.symm, h2.symm⟩
  · exact absurd h (by simp)

theorem charP_eq_some {c : Char} {s r : List Char} {v : Unit}
    (h : charP c s = some (v, r)) : s = c :: r := by
  cases s with
  | nil => exact absurd h (by simp [charP])
  | cons x t =>
    simp only [charP] at h
    split at h
    · rename_i hx
      obtain ⟨_, h2⟩ := someInj h
      rw [hx, h2]
    · exact absurd h (by simp)

theorem isNot1_eq_some {b : Char} {s t r : List Char}
    (h : isNot1 b s = some (t, r)) :
    t = s.takeWhile (fun c => ¬ (c = b)) ∧
    r = s.dropWhile (fun c => ¬ (c = b)) := by
  simp only [isNot1] at h
  split at h
  · exact absurd h (by simp)
  · obtain ⟨h1, h2⟩ := someInj h
    exact ⟨h1.symm, h2.symm⟩

theorem parse_annot_suffix {s : List Char} {a : Annot} {r : List Char}
    (h : parse_annot s = some (a, r)) : r <:+ s := by
  unfold parse_annot at h
  split at h
  · exact absurd h (by simp)
  · rename_i v s1 htag
    have hs1 : s1 <:+ s := (tagP_eq_some htag).2 ▸ List.drop_suffix _ s
    simp only [takeWhileF] at h
    split at h
    · split at h
      · exact absurd h (by simp)
      · rename_i v4 s4 hchar4
        split at h
        · exact absurd h (by simp)
        · rename_i between s5 hnot
          split at h
          · exact absurd h (by simp)
          · rename_i v6 s6 hchar6
            split at h
            · exact absurd h (by simp)
            · rename_i args rem hargs
              obtain ⟨_, h2⟩ := Prod.mk.injEq .. ▸ (Option.some.injEq .. ▸ h)
              subst h2
              have c1 : ms0 s6 <:+ s6 := List.dropWhile_suffix _
              have c2 : s6 <:+ s5 := charP_eq_some hchar6 ▸ List.suffix_cons _ _
              have c3 : s5 <:+ s4 := (isNot1_eq_some hnot).2 ▸ List.dropWhile_suffix _
              have c4 : s4 <:+ ms0 (s1.dropWhile Char.isAlphanum) :=
                charP_eq_some hchar4 ▸ List.suffix_cons _ _
              have c5 : ms0 (s1.dropWhile Char.isAlphanum) <:+ s1 :=
                (List.dropWhile_suffix _).trans (List.dropWhile_suffix _)
              exact (((((c1.trans c2).trans c3).trans c4).trans c5).trans hs1)
    · obtain ⟨_, h2⟩ := Prod.mk.injEq .. ▸ (Option.some.injEq .. ▸ h)
      subst h2
      exact (((List.dropWhile_suffix _).trans (List.dropWhile_suffix _)).trans hs1)

theorem many0F_suffix {α : Type} (p : List Char → Option (α × List Char))
    (hp : ∀ s a r, p s = some (a, r) → r <:+ s) :
    ∀ fuel s as r, many0F p fuel s = some (as, r) → r <:+ s := by
  intro fuel
  induction fuel with
  | zero => intro s as r h; exact absurd h (by simp [many0F])
  | succ n ih =>
    intro s as r h
    unfold many0F at h
    split at h
    · obtain ⟨_, h2⟩ := Prod.mk.injEq .. ▸ (Option.some.injEq .. ▸ h)
      exact h2 ▸ List.suffix_refl s
    · rename_i a s1 hps
      split at h
      · exact absurd h (by simp)
      · split at h
        · exact absurd h (by simp)
        · rename_i as2 s2 hm
          obtain ⟨_, h2⟩ := Prod.mk.injEq .. ▸ (Option.some.injEq .. ▸ h)
          exact h2 ▸ ((ih s1 as2 s2 hm).trans (hp s a s1 hps))

theorem findSub_split {n h : List Char} {p : Nat}
    (hf : findSub n h = some p) : containsStr n h := by
  induction h generalizing p with
  | nil =>
    unfold findSub at hf
    split at hf
    · rename_i hpre
      have hn : n = [] := by
        have := List.isPrefixOf_iff_prefix.mp hpre
        exact List.prefix_nil.mp this
      exact ⟨[], [], by simp [hn]⟩
    · exact absurd hf (by simp)
  | cons c rest ih =>
    unfold findSub at hf
    split at hf
    · rename_i hpre
      obtain ⟨t, ht⟩ := List.isPrefixOf_iff_prefix.mp hpre
      exact ⟨[], t, by simp [← ht]⟩
    · cases hq : findSub n rest with
      | none => rw [hq] at hf; exact absurd hf (by simp)
      | some q =>
        obtain ⟨pre, post, heq⟩ := ih hq
        exact ⟨c :: pre, post, by simp [heq]⟩

theorem containsStr_of_suffix {n s t : List Char} (hsub : s <:+ t)
    (h : containsStr n s) : containsStr n t := by
  obtain ⟨pre, post, rfl⟩ := h
  obtain ⟨u, rfl⟩ := hsub
  exact ⟨u ++ pre, post, by simp⟩

theorem pkgStage_parts {input pkg s1 : List Char}
    (h : pkgStage input = some (pkg, s1)) :
    s1 <:+ input ∧ containsStr (String.data "package") input := by
  unfold pkgStage at h
  split at h
  · exact absurd h (by simp)
  · rename_i pos hf
    dsimp only at h
    split at h
    · exact absurd h (by simp)
    · rename_i v s1' htag
      split at h
      · exact absurd h (by simp)
      · rename_i between s2' hnot
        split at h
        · exact absurd h (by simp)
        · rename_i v3 s3' hchar
          obtain ⟨_, h2⟩ := Prod.mk.injEq .. ▸ (Option.some.injEq .. ▸ h)
          subst h2
          have c1 : s3' <:+ s2' := charP_eq_some hchar ▸ List.suffix_cons _ _
          have c2 : s2' <:+ s1' := (isNot1_eq_some hnot).2 ▸ List.dropWhile_suffix _
          have c3 : s1' <:+ input.drop pos :=
            (tagP_eq_some htag).2 ▸ List.drop_suffix _ _
          exact ⟨((c1.trans c2).trans c3).trans (List.drop_suffix _ _),
            findSub_split hf⟩

theorem annStage_suffix {s : List Char} {anns : List Annot} {s2 : List Char}
    (h : annStage s = some (anns, s2)) : s2 <:+ s := by
  unfold annStage at h
  split at h
  · obtain ⟨_, h2⟩ := Prod.mk.injEq .. ▸ (Option.some.injEq .. ▸ h)
    exact h2 ▸ List.suffix_refl s
  · rename_i pos hf
    exact (many0F_suffix parse_annot
      (fun s a r hh => parse_annot_suffix hh) _ _ anns s2 h).trans
      (List.drop_suffix _ _)

theorem parse_class_inv (input : List Char) (c : Class) (r : List Char)
    (h : parse_class input = some (c, r)) :
    ∃ package s1 anns s2 cpos,
      pkgStage input = some (package, s1) ∧ annStage s1 = some (anns, s2) ∧
      findSub (String.data "class") s2 = some cpos ∧
      c.package = package ∧
      c.component_type = (processAnns package anns).1 ∧
      c.name = (ms0 (s2.drop (cpos + 5))).takeWhile Char.isAlphanum ∧
      c.interfaces = ifaceStage ((ms0 (s2.drop (cpos + 5))).dropWhile Char.isAlphanum) := by
  unfold parse_class at h
  split at h
  · exact absurd h (by simp)
  · rename_i package s1 hp
    split at h
    · exact absurd h (by simp)
    · rename_i anns s2 ha
      split at h
      · exact absurd h (by simp)
      · rename_i cpos hf
        dsimp only at h
        split at h
        · exact absurd h (by simp)
        · rename_i autos hA
          split at h
          · exact absurd h (by simp)
          · rename_i beans hB
            rw [Option.some.injEq, Prod.mk.injEq] at h
            obtain ⟨hc, hr⟩ := h
            subst hc
            exact ⟨package, s1, anns, s2, cpos, hp, ha, hf, rfl, rfl, rfl, rfl⟩

/-! ## C5: last component marker wins -/

theorem annFold_fst (package : List Char)
    (st : Option ComponentType × List (List Char) × List (List Char))
    (a : Annot) :
    (annFold package st a).1 =
      match markerOf a with | some t => some t | none => st.1 := rfl

theorem processAnns_fst (package : List Char) (anns : List Annot) :
    ∀ st, (List.foldl (annFold package) st anns).1 =
      match (anns.filterMap markerOf).getLast? with
      | some t => some t
      | none => st.1 := by
  induction anns with
  | nil => intro st; simp
  | cons a l ih =>
    intro st
    rw [List.foldl_cons, List.filterMap_cons]
    cases hm : markerOf a with
    | none =>
      rw [ih]
      have hfst : (annFold package st a).1 = st.1 := by rw [annFold_fst, hm]
      cases (l.filterMap markerOf).getLast? <;> simp [hfst]
    | some t =>
      rw [ih]
      have hfst : (annFold package st a).1 = some t := by rw [annFold_fst, hm]
      cases hl : l.filterMap markerOf with
      | nil => simp [hfst]
      | cons y ys =>
        rw [List.getLast?_cons_cons]
        obtain ⟨z, hz⟩ : ∃ z, (y :: ys).getLast? = some z :=
          ⟨_, List.getLast?_eq_getLast_of_ne_nil (List.cons_ne_nil y ys)⟩
        rw [hz]

/-- C5: when class extraction succeeds and the class-level annotation run
contains two or more recognized component markers, the extracted kind is
the tag of the last such marker in source order. -/
theorem claim_c5_last_marker_wins (input : List Char)
    (h : (parse_class input).isSome = true)
    (_h2 : 2 ≤ ((classAnns input).filterMap markerOf).length) :
    (parse_class input).map (fun p => p.1.component_type) =
      some (((classAnns input).filterMap markerOf).getLast?) := by
  obtain ⟨⟨c, r⟩, hcr⟩ := Option.isSome_iff_exists.mp h
  obtain ⟨package, s1, anns, s2, cpos, hp, ha, hf, hpkg, hct, hname, hiface⟩ :=
    parse_class_inv input c r hcr
  have hca : classAnns input = anns := by
    unfold classAnns
    simp only [hp, ha]
  rw [hcr, hca]
  simp only [Option.map_some']
  rw [hct]
  unfold processAnns
  rw [processAnns_fst]
  cases (anns.filterMap markerOf).getLast? <;> rfl

/-- C5 witness: on the concrete two-marker input the extracted kind is the
tag of the last marker (`Component`). -/
theorem claim_c5_witness :
    ((parse_class c5input).isSome = true) ∧
    (2 ≤ ((classAnns c5input).filterMap markerOf).length) ∧
    (parse_class c5input).map (fun p => p.1.component_type) =
      some (((classAnns c5input).filterMap markerOf).getLast?) :=
  ⟨rfl, by decide, claim_c5_last_marker_wins c5input rfl (by decide)⟩

/-! ## C6: bean name override -/

/-- C6: whenever bean parsing succeeds, the exposed name is the marker
annotation's string value when there is one — with the produced type still
the declared return type — and the method's own name otherwise. -/
theorem claim_c6_exposed_name (input s1 rest : List Char) (ann : Annot)
    (cls mname : List Char) (ps : List Parameter)
    (h1 : parse_annot input = some (ann, s1))
    (h2 : parseBeanTail s1 = some ((cls, mname, ps), rest)) :
    (∀ nmv, ann.value = some (.String nmv) →
      parse_bean input = some (⟨nmv, cls, ps⟩, rest)) ∧
    ((∀ nmv, ¬ ann.value = some (.String nmv)) →
      parse_bean input = some (⟨mname, cls, ps⟩, rest)) := by
  constructor
  · intro nmv hv
    unfold parse_bean
    simp only [h1, h2, hv, beanName]
  · intro hnv
    have hval : beanName ann.value mname = mname := by
      unfold beanName
      cases hv : ann.value with
      | none => rfl
      | some v =>
        cases v with
        | String n => exact absurd hv (hnv n)
        | Class c2 => rfl
        | Array vs => rfl
    unfold parse_bean
    simp only [h1, h2, hval]

/-- C6 witness: the string value overrides the exposed name while the
produced type stays the declared return type. -/
theorem claim_c6_witness :
    parse_bean c6input =
      some (⟨String.data "newName", String.data "MyBean",
             [⟨String.data "FooBean", String.data "fooBean"⟩]⟩, [rPar]) := by
  have h1 : parse_annot c6input =
      some (⟨String.data "Bean", .Single (.String (String.data "newName"))⟩,
        String.data "private MyBean myBean(FooBean fooBean)") := by rfl
  have h2 : parseBeanTail (String.data "private MyBean myBean(FooBean fooBean)") =
      some ((String.data "MyBean", String.data "myBean",
        [⟨String.data "FooBean", String.data "fooBean"⟩]), [rPar]) := by rfl
  exact (claim_c6_exposed_name _ _ _ _ _ _ _ h1 h2).1 (String.data "newName") (by rfl)

/-! ## C7: anchors, and emptiness of package and name -/

/-- C7 counterexample: on `package ;class ;` extraction succeeds although
both the package and the name are empty strings. -/
theorem claim_c7_counterexample :
    (parse_class (String.data "package ;class ;")).map (fun p => p.1.package) =
      some [] ∧
    (parse_class (String.data "package ;class ;")).map (fun p => p.1.name) =
      some [] := ⟨rfl, rfl⟩

/-- C7 amended: successful extraction guarantees that the anchor keywords
`package` and `class` occur in the input (their absence is the hard
failure); it does not guarantee that the extracted package or name strings
are non-empty. -/
theorem claim_c7_anchors (input : List Char)
    (h : (parse_class input).isSome = true) :
    containsStr (String.data "package") input ∧
    containsStr (String.data "class") input := by
  obtain ⟨⟨c, r⟩, hcr⟩ := Option.isSome_iff_exists.mp h
  obtain ⟨package, s1, anns, s2, cpos, hp, ha, hf, _, _, _, _⟩ :=
    parse_class_inv input c r hcr
  obtain ⟨hsuf, hpkg⟩ := pkgStage_parts hp
  have hcl : containsStr (String.data "class") s2 := findSub_split hf
  exact ⟨hpkg, containsStr_of_suffix ((annStage_suffix ha).trans hsuf) hcl⟩

/-- C7 witness at a concrete successfully extracted input. -/
theorem claim_c7_witness :
    ((parse_class (String.data "package a;class A")).isSome = true) ∧
    (containsStr (String.data "package") (String.data "package a;class A") ∧
     containsStr (String.data "class") (String.data "package a;class A")) :=
  ⟨rfl, claim_c7_anchors (String.data "package a;class A") rfl⟩

/-! ## C9: interfaces -/

theorem rustSplit_no_sep {c : Char} {l : List Char}
    (h : ∀ x ∈ l, ¬ x = c) : rustSplit c l = [l] := by
  induction l with
  | nil => rfl
  | cons x t ih =>
    have hx : ¬ x = c := h x (by simp)
    have ht := ih (fun y hy => h y (by simp [hy]))
    simp [rustSplit, hx, ht]

theorem mem_trimBoth {x : Char} {l : List Char} (h : x ∈ trimBoth l) : x ∈ l := by
  unfold trimBoth at h
  rw [List.mem_reverse] at h
  have h2 := (List.dropWhile_suffix _).sublist.subset h
  rw [List.mem_reverse] at h2
  exact (List.dropWhile_suffix _).sublist.subset h2

theorem ifaceStage_cases (s : List Char) :
    ifaceStage s = [] ∨
    ∃ t, ifaceStage s = [t] ∧ ∀ c ∈ t, c.isAlphanum = true := by
  unfold ifaceStage
  cases hf : findSub (String.data "implements") s with
  | none => exact Or.inl rfl
  | some pos =>
    right
    simp only [takeWhileF]
    have hal : ∀ x ∈ (ms0 (s.drop (pos + 10))).takeWhile Char.isAlphanum,
        x.isAlphanum = true := fun x hx => List.mem_takeWhile_imp hx
    have hnc : ∀ x ∈ (ms0 (s.drop (pos + 10))).takeWhile Char.isAlphanum,
        ¬ x = commaC := by
      intro x hx hxe
      have := hal x hx
      rw [hxe] at this
      exact absurd this (by decide)
    rw [rustSplit_no_sep hnc]
    refine ⟨trimBoth ((ms0 (s.drop (pos + 10))).takeWhile Char.isAlphanum),
      by simp, ?_⟩
    intro c hc
    exact hal c (mem_trimBoth hc)

/-- C9 counterexample: a class declaring two interfaces yields only the
first name — the interface scan reads a single alphanumeric run before
splitting on commas, so `IBar` is lost. -/
theorem claim_c9_counterexample :
    (parse_class c9input).map (fun p => p.1.interfaces) =
      some [String.data "IFoo"] := by rfl

/-- C9 amended: successful extraction records at most one implemented
interface: the first maximal alphanumeric identifier after `implements`
(or none at all when the keyword is absent); the rest of a comma-separated
list is dropped. -/
theorem claim_c9_at_most_one_interface (input : List Char)
    (h : (parse_class input).isSome = true) :
    (parse_class input).map (fun p => p.1.interfaces) = some [] ∨
    ∃ t, (parse_class input).map (fun p => p.1.interfaces) = some [t] ∧
      ∀ c ∈ t, c.isAlphanum = true := by
  obtain ⟨⟨c, r⟩, hcr⟩ := Option.isSome_iff_exists.mp h
  obtain ⟨package, s1, anns, s2, cpos, hp, ha, hf, hpkg, hct, hname, hiface⟩ :=
    parse_class_inv input c r hcr
  rw [hcr]
  simp only [Option.map_some']
  rcases ifaceStage_cases ((ms0 (s2.drop (cpos + 5))).dropWhile Char.isAlphanum) with
    h0 | ⟨t, h1, h2⟩
  · exact Or.inl (by rw [hiface, h0])
  · exact Or.inr ⟨t, by rw [hiface, h1], h2⟩

/-- C9 witness: the amended statement applied to the two-interface
counterexample input. -/
theorem claim_c9_witness :
    (parse_class c9input).map (fun p => p.1.interfaces) = some [] ∨
    ∃ t, (parse_class c9input).map (fun p => p.1.interfaces) = some [t] ∧
      ∀ c ∈ t, c.isAlphanum = true :=
  claim_c9_at_most_one_interface c9input rfl

/-! ## C8: round-trip of `@Name({v1, v2, ...})` -/

theorem dropWhile_head_not {p : Char → Bool} {l : List Char} {x : Char}
    {xs : List Char} (h : l.dropWhile p = x :: xs) : p x = false := by
  induction l with
  | nil => simp at h
  | cons a t ih =>
    rw [List.dropWhile_cons] at h
    split at h
    · exact ih h
    · rename_i hpa
      injection h with h1 h2
      subst h1
      simpa using hpa

theorem not_mem_of_contains_false {l : List Char} {a : Char}
    (h : l.contains a = false) : a ∉ l := by
  intro hm
  have h2 : l.elem a = true := List.elem_iff.mpr hm
  rw [show l.contains a = l.elem a from rfl, h2] at h
  exact Bool.noConfusion h

theorem contains_false_of_forall {l : List Char} {a : Char}
    (h : ∀ c ∈ l, ¬ c = a) : l.contains a = false := by
  cases hcc : l.contains a with
  | false => rfl
  | true =>
    have hm : a ∈ l := List.elem_iff.mp (by rw [show l.elem a = l.contains a from rfl, hcc])
    exact absurd rfl (h a hm)

theorem prefix_shorten {n a b : List Char} (h : n <+: a ++ b)
    (hl : n.length ≤ a.length) : n <+: a := by
  have h1 := List.prefix_iff_eq_take.mp h
  rw [List.take_append_of_le_length hl] at h1
  exact h1 ▸ List.take_prefix _ _

theorem isNot1_ne_nil {b : Char} {s t r : List Char}
    (h : isNot1 b s = some (t, r)) : t ≠ [] := by
  simp only [isNot1] at h
  split at h
  · exact absurd h (by simp)
  · rename_i hne
    obtain ⟨h1, _⟩ := someInj h
    intro hnil
    rw [h1] at hne
    exact hne (by rw [hnil]; rfl)

theorem charP_cons (c : Char) (r : List Char) : charP c (c :: r) = some ((), r) := by
  simp [charP]

theorem tagP_isPrefix {t s v r : List Char} (h : tagP t s = some (v, r)) :
    t <+: s := by
  unfold tagP at h
  split at h
  · rename_i hp
    exact List.isPrefixOf_iff_prefix.mp hp
  · exact absurd h (by simp)

theorem containsStr_cons {n : List Char} {x : Char} {l : List Char}
    (h : containsStr n l) : containsStr n (x :: l) := by
  obtain ⟨pre, post, heq⟩ := h
  exact ⟨x :: pre, post, by simp [heq]⟩

theorem findSub_cons (n : List Char) (c : Char) (rest : List Char) :
    findSub n (c :: rest) =
      if n.isPrefixOf (c :: rest) then some 0
      else (findSub n rest).map (· + 1) := rfl

theorem findSub_min {n h : List Char} {p : Nat} (hn : n ≠ [])
    (hf : findSub n h = some p) : ¬ containsStr n (h.take p) := by
  induction h generalizing p with
  | nil =>
    unfold findSub at hf
    split at hf
    · rename_i hpre
      exact absurd (List.prefix_nil.mp (List.isPrefixOf_iff_prefix.mp hpre)) hn
    · exact absurd hf (by simp)
  | cons c rest ih =>
    rw [findSub_cons] at hf
    split at hf
    · have hp0 : p = 0 := by simpa using hf.symm
      subst hp0
      intro hcon
      obtain ⟨pre, post, heq⟩ := hcon
      rw [List.take_zero] at heq
      have h0 := heq.symm
      simp only [List.append_eq_nil] at h0
      exact hn h0.1.2
    · rename_i hnpre
      cases hq : findSub n rest with
      | none => rw [hq] at hf; exact absurd hf (by simp)
      | some q =>
        rw [hq] at hf
        have hpq : p = q + 1 := by simpa using hf.symm
        subst hpq
        intro hcon
        obtain ⟨pre, post, heq⟩ := hcon
        rw [List.take_succ_cons] at heq
        cases pre with
        | nil =>
          simp only [List.nil_append] at heq
          have hpfx : n <+: c :: rest.take q := ⟨post, heq.symm⟩
          have hstep : c :: rest.take q <+: c :: rest :=
            List.cons_prefix_cons.mpr ⟨rfl, List.take_prefix q rest⟩
          exact hnpre (List.isPrefixOf_iff_prefix.mpr (hpfx.trans hstep))
        | cons x pre' =>
          injection heq with h1 h2
          exact ih hq ⟨pre', post, h2⟩

theorem dotClass_eq : dotClass = Char.ofNat 46 :: String.data "class" := rfl

theorem dotClass_len : dotClass.length = 6 := rfl

theorem dotClass_border : ∀ k : Nat, 1 ≤ k → k < 6 →
    ¬ (dotClass.drop k = dotClass.take (6 - k)) := by
  intro k h1 h2
  interval_cases k <;> decide

theorem findSub_boundary (c rest : List Char)
    (hnc : ¬ containsStr dotClass c) :
    findSub dotClass (c ++ (dotClass ++ rest)) = some c.length := by
  induction c with
  | nil =>
    rw [List.nil_append]
    rw [show dotClass ++ rest = Char.ofNat 46 :: (String.data "class" ++ rest) from
      by simp [dotClass_eq]]
    rw [findSub_cons]
    have hpre2 : dotClass.isPrefixOf
        (Char.ofNat 46 :: (String.data "class" ++ rest)) = true := by
      rw [show Char.ofNat 46 :: (String.data "class" ++ rest) = dotClass ++ rest from
        by simp [dotClass_eq]]
      exact List.isPrefixOf_iff_prefix.mpr (List.prefix_append _ _)
    rw [if_pos hpre2]
    simp
  | cons x c' ih =>
    rw [List.cons_append, findSub_cons]
    have hnp : ¬ (dotClass.isPrefixOf (x :: (c' ++ (dotClass ++ rest))) = true) := by
      intro hp
      have hp2 := List.isPrefixOf_iff_prefix.mp hp
      rw [show x :: (c' ++ (dotClass ++ rest)) = (x :: c') ++ (dotClass ++ rest) from
        by simp] at hp2
      by_cases hlen : 6 ≤ (x :: c').length
      · have hsh : dotClass <+: x :: c' :=
          prefix_shorten hp2 (by rw [dotClass_len]; exact hlen)
        obtain ⟨t, ht⟩ := hsh
        exact hnc ⟨[], t, by simp [← ht]⟩
      · push_neg at hlen
        have hk1 : 1 ≤ (x :: c').length := by simp
        have heq : dotClass = (x :: c') ++ dotClass.take (6 - (x :: c').length) := by
          have h1 := List.prefix_iff_eq_take.mp hp2
          rw [dotClass_len] at h1
          rw [List.take_append_eq_append_take] at h1
          rw [List.take_of_length_le (le_of_lt hlen)] at h1
          rw [List.take_append_of_le_length (by rw [dotClass_len]; omega)] at h1
          exact h1
        have hdk : dotClass.drop (x :: c').length =
            dotClass.take (6 - (x :: c').length) := by
          conv_lhs => rw [heq]
          rw [List.drop_left]
        exact dotClass_border (x :: c').length hk1 hlen hdk
    rw [if_neg hnp]
    rw [ih (fun hcon => hnc (containsStr_cons hcon))]
    simp

theorem take_head {l : List Char} {n : Nat} {x : Char} {xs : List Char}
    (h : l.take n = x :: xs) : ∃ t, l = x :: t := by
  cases l with
  | nil => simp at h
  | cons a t =>
    cases n with
    | zero => simp at h
    | succ m =>
      rw [List.take_succ_cons] at h
      injection h with h1 _
      exact ⟨t, by rw [h1]⟩

theorem isSpTab_isWhitespace {x : Char} (h : isSpTab x = true) :
    x.isWhitespace = true := by
  unfold isSpTab at h
  have h2 := of_decide_eq_true h
  rcases h2 with h1 | h1 <;> subst h1 <;> decide

theorem mem_takeWhile_pred {p : Char → Bool} {l : List Char} {x : Char}
    (h : x ∈ l.takeWhile p) : p x = true := by
  induction l with
  | nil => simp at h
  | cons a t ih =>
    rw [List.takeWhile_cons] at h
    split at h
    · rcases List.mem_cons.mp h with rfl | hm
      · assumption
      · exact ih hm
    · simp at h

theorem elemInv {fuel : Nat} {s : List Char} {v : AnnotArg} {r : List Char}
    (h : parseArgF fuel s = some (v, r))
    (hok : ∀ c ∈ s, okC c)
    (hhead : ∀ x xs, s = x :: xs → ¬ isSpTab x = true) :
    ElemOK v ∧ s = renderElem v ++ r := by
  cases fuel with
  | zero => exact absurd h (by simp [parseArgF])
  | succ n =>
    unfold parseArgF at h
    split at h
    · -- string-literal branch
      split at h
      · exact absurd h (by simp)
      · rename_i v1 s1 hc1
        split at h
        · exact absurd h (by simp)
        · rename_i between s2 hn1
          split at h
          · exact absurd h (by simp)
          · rename_i v3 s3 hc3
            obtain ⟨hv, hr⟩ := someInj h
            subst hv
            subst hr
            have hs := charP_eq_some hc1
            obtain ⟨hbt, hbd⟩ := isNot1_eq_some hn1
            have hbne := isNot1_ne_nil hn1
            have hs2 := charP_eq_some hc3
            have hsplit : between ++ s2 = s1 := by
              rw [hbt, hbd]
              exact List.takeWhile_append_dropWhile _ _
            refine ⟨⟨hbne, ?_⟩, ?_⟩
            · intro c hc
              rw [hbt] at hc
              have hcq : ¬ c = qMark :=
                of_decide_eq_true (mem_takeWhile_pred hc)
              refine ⟨hcq, ?_⟩
              apply hok
              rw [hs, ← hsplit, hbt]
              exact List.mem_cons_of_mem _ (List.mem_append_left _ hc)
            · rw [hs, ← hsplit, hs2]
              simp [renderElem]
    · rename_i hq
      split at h
      · -- array branch: impossible for an element (no `}` in the input)
        split at h
        · exact absurd h (by simp)
        · rename_i v1 s1 hc1
          split at h
          · exact absurd h (by simp)
          · rename_i between s2 hn1
            split at h
            · exact absurd h (by simp)
            · rename_i v3 s3 hc3
              exfalso
              have hs := charP_eq_some hc1
              obtain ⟨hbt, hbd⟩ := isNot1_eq_some hn1
              have hs2 := charP_eq_some hc3
              have hsplit : between ++ s2 = s1 := by
                rw [hbt, hbd]
                exact List.takeWhile_append_dropWhile _ _
              have hmem : rBr ∈ s := by
                rw [hs, ← hsplit, hs2]
                simp
              exact absurd rfl (hok rBr hmem).1
      · -- type-reference branch
        rename_i hb
        split at h
        · exact absurd h (by simp)
        · rename_i name s1 htu
          split at h
          · exact absurd h (by simp)
          · rename_i v2 s2 htag
            obtain ⟨hv, hr⟩ := someInj h
            subst hv
            subst hr
            have htu2 : ∃ p, findSub dotClass s = some p ∧
                name = s.take p ∧ s1 = s.drop p := by
              unfold takeUntilP at htu
              cases hfs : findSub dotClass s with
              | none => rw [hfs] at htu; exact absurd htu (by simp)
              | some p =>
                rw [hfs] at htu
                simp at htu
                exact ⟨p, rfl, htu.1.symm, htu.2.symm⟩
            obtain ⟨p, hfs, hname, hs1⟩ := htu2
            have hdrop := (tagP_eq_some htag).2
            obtain ⟨t2, ht2⟩ := tagP_isPrefix htag
            have hs2 : s2 = t2 := by rw [hdrop, ← ht2, List.drop_left]
            have hrend : s = (name ++ dotClass) ++ s2 := by
              conv_lhs => rw [← List.take_append_drop p s]
              rw [← hname, ← hs1, ← ht2, hs2, List.append_assoc]
            refine ⟨⟨?_, ?_, ?_⟩, by rw [hrend]; simp [renderElem]⟩
            · rw [hname]
              exact findSub_min (by rw [dotClass_eq]; simp) hfs
            · intro x hx
              exact hok x (List.take_subset _ _ (hname ▸ hx))
            · intro x xs hxx
              obtain ⟨t3, ht3⟩ := take_head (hname.symm.trans hxx)
              refine ⟨?_, ?_, ?_⟩
              · intro hxq
                apply hq
                rw [ht3, hxq]
                rfl
              · intro hxb
                apply hb
                rw [ht3, hxb]
                rfl
              · exact hhead x t3 ht3

theorem elemHead1 {fuel : Nat} {s : List Char} {v : AnnotArg} {r : List Char}
    (h : parseArgF fuel s = some (v, r))
    (hws : ∀ x xs, s = x :: xs → ¬ x.isWhitespace = true) : Head1OK v := by
  cases fuel with
  | zero => exact absurd h (by simp [parseArgF])
  | succ n =>
    unfold parseArgF at h
    split at h
    · -- string branch: Head1OK trivially
      split at h
      · exact absurd h (by simp)
      · rename_i v1 s1 hc1
        split at h
        · exact absurd h (by simp)
        · rename_i between s2 hn1
          split at h
          · exact absurd h (by simp)
          · rename_i v3 s3 hc3
            obtain ⟨hv, _⟩ := someInj h
            subst hv
            trivial
    · split at h
      · -- array branch: Head1OK trivially
        split at h
        · exact absurd h (by simp)
        · rename_i v1 s1 hc1
          split at h
          · exact absurd h (by simp)
          · rename_i between s2 hn1
            split at h
            · exact absurd h (by simp)
            · rename_i v3 s3 hc3
              split at h
              · exact absurd h (by simp)
              · rename_i values rem hsl
                obtain ⟨hv, _⟩ := someInj h
                subst hv
                trivial
      · -- type-reference branch
        split at h
        · exact absurd h (by simp)
        · rename_i name s1 htu
          split at h
          · exact absurd h (by simp)
          · rename_i v2 s2 htag
            obtain ⟨hv, _⟩ := someInj h
            subst hv
            intro x xs hxx
            have hname : ∃ p, name = s.take p := by
              unfold takeUntilP at htu
              cases hfs : findSub dotClass s with
              | none => rw [hfs] at htu; exact absurd htu (by simp)
              | some p =>
                rw [hfs] at htu
                simp at htu
                exact ⟨p, htu.1.symm⟩
            obtain ⟨p, hname⟩ := hname
            obtain ⟨t3, ht3⟩ := take_head (hname.symm.trans hxx)
            exact hws x t3 ht3

theorem sepTailInv {efuel : Nat} : ∀ (fuel : Nat) (s : List Char)
    (vs : List AnnotArg) (r : List Char),
    sepTailF (parseArgF efuel) fuel s = some (vs, r) →
    (∀ c ∈ s, okC c) →
    ∀ v ∈ vs, ElemOK v := by
  intro fuel
  induction fuel with
  | zero => intro s vs r h hok; exact absurd h (by simp [sepTailF])
  | succ n ih =>
    intro s vs r h hok
    unfold sepTailF at h
    split at h
    · obtain ⟨h1, _⟩ := someInj h
      intro v hv
      rw [← h1] at hv
      simp at hv
    · rename_i u s1 hsep
      split at h
      · exact absurd h (by simp)
      · split at h
        · obtain ⟨h1, _⟩ := someInj h
          intro v hv
          rw [← h1] at hv
          simp at hv
        · rename_i a s2 hf
          split at h
          · exact absurd h (by simp)
          · rename_i as s3 hrec
            obtain ⟨h1, _⟩ := someInj h
            have hsc : ∃ tail, s = commaC :: tail ∧ s1 = sp0 tail := by
              unfold sepComma at hsep
              split at hsep
              · exact absurd hsep (by simp)
              · rename_i w s1' htag
                obtain ⟨_, hs1⟩ := someInj hsep
                obtain ⟨tail, htail⟩ := tagP_isPrefix htag
                have hdrop := (tagP_eq_some htag).2
                refine ⟨tail, by simp [← htail], ?_⟩
                rw [← hs1, hdrop, ← htail]
                simp
            obtain ⟨tail, hst, hs1⟩ := hsc
            have hok1 : ∀ c ∈ s1, okC c := by
              intro c hc
              apply hok
              rw [hst]
              rw [hs1] at hc
              exact List.mem_cons_of_mem _ ((List.dropWhile_suffix _).sublist.subset hc)
            have hhead1 : ∀ x xs, s1 = x :: xs → ¬ isSpTab x = true := by
              intro x xs hx
              rw [hs1] at hx
              rw [dropWhile_head_not hx]
              simp
            obtain ⟨hev, hrend⟩ := elemInv hf hok1 hhead1
            intro v hv
            rw [← h1] at hv
            rcases List.mem_cons.mp hv with rfl | hvm
            · exact hev
            · have hok2 : ∀ c ∈ s2, okC c := fun c hc =>
                hok1 c (by rw [hrend]; exact List.mem_append_right _ hc)
              exact ih s2 as s3 hrec hok2 v hvm

theorem sepListInv {efuel : Nat} {t : List Char} {vs : List AnnotArg}
    {r : List Char}
    (h : sepList0 (parseArgF efuel) t = some (vs, r))
    (hok : ∀ c ∈ t, okC c)
    (hws : ∀ x xs, t = x :: xs → ¬ x.isWhitespace = true) :
    (∀ v ∈ vs, ElemOK v) ∧ (∀ v, vs.head? = some v → Head1OK v) := by
  unfold sepList0 at h
  split at h
  · obtain ⟨h1, _⟩ := someInj h
    constructor
    · intro v hv; rw [← h1] at hv; simp at hv
    · intro v hv; rw [← h1] at hv; simp at hv
  · rename_i a s1 hf
    split at h
    · exact absurd h (by simp)
    · rename_i as r2 htail
      obtain ⟨h1, _⟩ := someInj h
      have hws' : ∀ x xs, t = x :: xs → ¬ isSpTab x = true := by
        intro x xs hx hsp
        exact hws x xs hx (isSpTab_isWhitespace hsp)
      obtain ⟨hea, hrend⟩ := elemInv hf hok hws'
      have hh1 := elemHead1 hf hws
      constructor
      · intro v hv
        rw [← h1] at hv
        rcases List.mem_cons.mp hv with rfl | hvm
        · exact hea
        · exact sepTailInv _ s1 as r2 htail
            (fun c hc => hok c (by rw [hrend]; exact List.mem_append_right _ hc)) v hvm
      · intro v hv
        rw [← h1] at hv
        simp at hv
        rw [← hv]
        exact hh1

theorem okC_qMark : okC qMark := ⟨by decide, by decide, by decide⟩

theorem okC_commaC : okC commaC := ⟨by decide, by decide, by decide⟩

theorem okC_spC : okC spC := ⟨by decide, by decide, by decide⟩

theorem okC_lBr : okC lBr := ⟨by decide, by decide, by decide⟩

theorem dotClass_okC : ∀ y ∈ dotClass, okC y := by
  intro y hy
  refine ⟨?_, ?_, ?_⟩ <;> intro he <;> subst he
  · exact absurd hy (by decide)
  · exact absurd hy (by decide)
  · exact absurd hy (by decide)

theorem sep2_eq : sep2 = [commaC, spC] := rfl

theorem sep2_okC : ∀ c ∈ sep2, okC c := by
  intro c hc
  rw [sep2_eq] at hc
  rcases List.mem_cons.mp hc with rfl | hc2
  · exact okC_commaC
  · rcases List.mem_cons.mp hc2 with rfl | hc3
    · exact okC_spC
    · simp at hc3

theorem renderElem_ne_nil {v : AnnotArg} (h : ElemOK v) : renderElem v ≠ [] := by
  cases v with
  | String s => simp [renderElem]
  | Class c => simp [renderElem, dotClass_eq]
  | Array vs => exact h.elim

theorem renderElem_chars {v : AnnotArg} (h : ElemOK v) :
    ∀ c ∈ renderElem v, okC c := by
  cases v with
  | String s =>
    intro c hc
    obtain ⟨hne, hs⟩ := h
    rw [show renderElem (.String s) = qMark :: (s ++ [qMark]) from rfl] at hc
    rcases List.mem_cons.mp hc with rfl | hc2
    · exact okC_qMark
    · rcases List.mem_append.mp hc2 with hc3 | hc4
      · exact (hs c hc3).2
      · rw [List.mem_singleton] at hc4
        subst hc4
        exact okC_qMark
  | Class c =>
    intro x hx
    obtain ⟨hnc, hokc, hhd⟩ := h
    rw [show renderElem (.Class c) = c ++ dotClass from rfl] at hx
    rcases List.mem_append.mp hx with hx | hx
    · exact hokc x hx
    · exact dotClass_okC x hx
  | Array vs => exact h.elim

theorem renderElem_head_not_sptab {v : AnnotArg} (hv : ElemOK v) :
    ∀ x l, renderElem v = x :: l → isSpTab x = false := by
  cases v with
  | String s =>
    intro x l hx
    rw [show renderElem (.String s) = qMark :: (s ++ [qMark]) from rfl] at hx
    injection hx with h1 _
    rw [← h1]
    decide
  | Class c =>
    obtain ⟨hnc, hokc, hhd⟩ := hv
    intro x l hx
    cases c with
    | nil =>
      rw [show renderElem (.Class []) = dotClass from by simp [renderElem],
        dotClass_eq] at hx
      injection hx with h1 _
      rw [← h1]
      decide
    | cons y ys =>
      rw [show renderElem (.Class (y :: ys)) = y :: (ys ++ dotClass) from
        by simp [renderElem]] at hx
      injection hx with h1 _
      rw [← h1]
      have h2 := (hhd y ys rfl).2.2
      cases hxx : isSpTab y with
      | false => rfl
      | true => exact absurd hxx h2
  | Array vs => exact hv.elim

theorem renderElem_head_not_ws {v : AnnotArg} (hv : ElemOK v) (h1 : Head1OK v) :
    ∀ x l, renderElem v = x :: l → x.isWhitespace = false := by
  cases v with
  | String s =>
    intro x l hx
    rw [show renderElem (.String s) = qMark :: (s ++ [qMark]) from rfl] at hx
    injection hx with hh _
    rw [← hh]
    decide
  | Class c =>
    intro x l hx
    cases c with
    | nil =>
      rw [show renderElem (.Class []) = dotClass from by simp [renderElem],
        dotClass_eq] at hx
      injection hx with hh _
      rw [← hh]
      decide
    | cons y ys =>
      rw [show renderElem (.Class (y :: ys)) = y :: (ys ++ dotClass) from
        by simp [renderElem]] at hx
      injection hx with hh _
      rw [← hh]
      have h2 := h1 y ys rfl
      cases hxx : Char.isWhitespace y with
      | false => rfl
      | true => exact absurd hxx h2
  | Array vs => exact hv.elim

theorem joinSep_sgl (sep : List Char) (x : List Char) : joinSep sep [x] = x := rfl

theorem joinSep_cons2 (sep : List Char) (x y : List Char) (rest : List (List Char)) :
    joinSep sep (x :: y :: rest) = x ++ sep ++ joinSep sep (y :: rest) := rfl

theorem joinSep_chars {sep : List Char} (hsep : ∀ c ∈ sep, okC c) :
    ∀ ls : List (List Char), (∀ l ∈ ls, ∀ c ∈ l, okC c) →
    ∀ c ∈ joinSep sep ls, okC c := by
  intro ls
  induction ls with
  | nil => intro hls c hc; simp [joinSep] at hc
  | cons x ys ih =>
    intro hls c hc
    cases ys with
    | nil =>
      rw [joinSep_sgl] at hc
      exact hls x (by simp) c hc
    | cons y rest =>
      rw [joinSep_cons2] at hc
      rcases List.mem_append.mp hc with hc1 | hc2
      · rcases List.mem_append.mp hc1 with hx | hsp
        · exact hls x (by simp) c hx
        · exact hsep c hsp
      · exact ih (fun l hl => hls l (List.mem_cons_of_mem _ hl)) c hc2

theorem joinSep_map_render : ∀ (vs : List AnnotArg) (v : AnnotArg),
    joinSep sep2 ((v :: vs).map renderElem) = renderElem v ++ renderTail vs := by
  intro vs
  induction vs with
  | nil => intro v; simp [joinSep, renderTail]
  | cons w ws ih =>
    intro v
    rw [show (v :: w :: ws).map renderElem =
      renderElem v :: (w :: ws).map renderElem from rfl]
    rw [show (w :: ws).map renderElem = renderElem w :: ws.map renderElem from rfl]
    rw [joinSep_cons2]
    rw [show renderElem w :: ws.map renderElem = (w :: ws).map renderElem from rfl]
    rw [ih w]
    rw [show renderTail (w :: ws) = sep2 ++ renderElem w ++ renderTail ws from rfl]
    simp [List.append_assoc]

theorem isNot1_exact {b : Char} {s : List Char} (rest : List Char)
    (hne : s ≠ []) (hs : ∀ c ∈ s, ¬ c = b) :
    isNot1 b (s ++ b :: rest) = some (s, b :: rest) := by
  obtain ⟨ht, hd⟩ := takeWhile_append_not (fun c => decide ¬ (c = b)) s b rest
    (fun c hc => decide_eq_true (hs c hc)) (by simp)
  have hemp : s.isEmpty = false := by simpa using hne
  simp only [isNot1, ht, hd, hemp]
  simp

theorem renderElem_parse (v : AnnotArg) (hv : ElemOK v) (rest : List Char)
    (fuel : Nat) :
    parseArgF (fuel + 1) (renderElem v ++ rest) = some (v, rest) := by
  cases v with
  | String s =>
    obtain ⟨hne, hs⟩ := hv
    have hinput : renderElem (.String s) ++ rest = qMark :: (s ++ qMark :: rest) := by
      simp [renderElem]
    rw [hinput]
    have h2 : isNot1 qMark (s ++ qMark :: rest) = some (s, qMark :: rest) :=
      isNot1_exact rest hne (fun c hc => (hs c hc).1)
    simp only [parseArgF, List.head?_cons, charP_cons, h2]
    simp
  | Class c =>
    obtain ⟨hnc, hokc, hhead⟩ := hv
    have hinput : renderElem (.Class c) ++ rest = c ++ (dotClass ++ rest) := by
      simp [renderElem]
    rw [hinput]
    have hq : ¬ ((c ++ (dotClass ++ rest)).head? = some qMark) := by
      intro hcon
      cases c with
      | nil =>
        rw [List.nil_append, dotClass_eq, List.cons_append, List.head?_cons] at hcon
        exact absurd (Option.some.inj hcon) (by decide)
      | cons x xs =>
        rw [List.cons_append, List.head?_cons] at hcon
        exact (hhead x xs rfl).1 (Option.some.inj hcon)
    have hb : ¬ ((c ++ (dotClass ++ rest)).head? = some lBr) := by
      intro hcon
      cases c with
      | nil =>
        rw [List.nil_append, dotClass_eq, List.cons_append, List.head?_cons] at hcon
        exact absurd (Option.some.inj hcon) (by decide)
      | cons x xs =>
        rw [List.cons_append, List.head?_cons] at hcon
        exact (hhead x xs rfl).2.1 (Option.some.inj hcon)
    have htu : takeUntilP dotClass (c ++ (dotClass ++ rest)) =
        some (c, dotClass ++ rest) := by
      simp only [takeUntilP, findSub_boundary c rest hnc, Option.map_some']
      rw [show (c ++ (dotClass ++ rest)).take c.length = c from by
        rw [← List.append_assoc]
        rw [List.take_append_of_le_length (by simp)]
        simp]
      rw [List.drop_left]
    have htag : tagP dotClass (dotClass ++ rest) = some (dotClass, rest) := by
      unfold tagP
      rw [if_pos (List.isPrefixOf_iff_prefix.mpr (List.prefix_append _ _))]
      rw [List.drop_left]
    simp only [parseArgF]
    rw [if_neg hq, if_neg hb]
    simp only [htu, htag]
  | Array vs => exact hv.elim

theorem renderTail_nil : renderTail [] = [] := rfl

theorem renderTail_cons (v : AnnotArg) (ws : List AnnotArg) :
    renderTail (v :: ws) = commaC :: spC :: (renderElem v ++ renderTail ws) := by
  rw [show renderTail (v :: ws) = sep2 ++ renderElem v ++ renderTail ws from rfl]
  rw [sep2_eq]
  simp

theorem renderTail_parse : ∀ (vs : List AnnotArg) (efuel fuel : Nat),
    (∀ v ∈ vs, ElemOK v) →
    (renderTail vs).length + 1 ≤ fuel →
    sepTailF (parseArgF (efuel + 1)) fuel (renderTail vs) = some (vs, []) := by
  intro vs
  induction vs with
  | nil =>
    intro efuel fuel hok hfuel
    cases fuel with
    | zero => rw [renderTail_nil] at hfuel; simp at hfuel
    | succ n =>
      rw [renderTail_nil]
      rfl
  | cons v ws ih =>
    intro efuel fuel hok hfuel
    have hv := hok v (by simp)
    have hne := renderElem_ne_nil hv
    rw [renderTail_cons] at hfuel ⊢
    cases fuel with
    | zero => simp at hfuel
    | succ n =>
      have hsp : sp0 (spC :: (renderElem v ++ renderTail ws)) =
          renderElem v ++ renderTail ws := by
        unfold sp0
        rw [List.dropWhile_cons]
        rw [if_pos (by decide)]
        cases hre : renderElem v with
        | nil => exact absurd hre hne
        | cons x l =>
          rw [List.cons_append, List.dropWhile_cons]
          rw [if_neg (by rw [renderElem_head_not_sptab hv x l hre]; simp)]
      have hsep : sepComma (commaC :: spC :: (renderElem v ++ renderTail ws)) =
          some ((), renderElem v ++ renderTail ws) := by
        unfold sepComma
        rw [show tagP [commaC] (commaC :: spC :: (renderElem v ++ renderTail ws)) =
          some ([commaC], spC :: (renderElem v ++ renderTail ws)) from by
            simp [tagP, List.isPrefixOf]]
        simp only [hsp]
      have hlen : ¬ ((renderElem v ++ renderTail ws).length =
          (commaC :: spC :: (renderElem v ++ renderTail ws)).length) := by
        simp only [List.length_cons, List.length_append]
        omega
      have hrec : sepTailF (parseArgF (efuel + 1)) n (renderTail ws) =
          some (ws, []) := by
        apply ih efuel n (fun w hw => hok w (List.mem_cons_of_mem _ hw))
        have hlv : 1 ≤ (renderElem v).length := by
          cases hre : renderElem v with
          | nil => exact absurd hre hne
          | cons x l => simp
        simp only [List.length_cons, List.length_append] at hfuel
        omega
      unfold sepTailF
      simp only [hsep, hlen, if_false,
        renderElem_parse v hv (renderTail ws) efuel, hrec]

theorem sepList_parse (v : AnnotArg) (ws : List AnnotArg) (efuel : Nat)
    (hok : ∀ u ∈ v :: ws, ElemOK u) :
    sepList0 (parseArgF (efuel + 1)) (joinSep sep2 ((v :: ws).map renderElem)) =
      some (v :: ws, []) := by
  rw [joinSep_map_render]
  unfold sepList0
  simp only [renderElem_parse v (hok v (by simp)) (renderTail ws) efuel]
  simp only [renderTail_parse ws efuel ((renderTail ws).length + 1)
    (fun w hw => hok w (List.mem_cons_of_mem _ hw)) (le_refl _)]

theorem renderList_parse (vs : List AnnotArg) (hne : vs ≠ [])
    (hok : ∀ u ∈ vs, ElemOK u)
    (hh1 : ∀ u, vs.head? = some u → Head1OK u)
    (rest : List Char) (g : Nat) :
    parseArgF (g + 2) (renderList vs ++ rest) = some (.Array vs, rest) := by
  obtain ⟨v, ws, rfl⟩ : ∃ v ws, vs = v :: ws := by
    cases vs with
    | nil => exact absurd rfl hne
    | cons v ws => exact ⟨v, ws, rfl⟩
  have hR := joinSep_map_render ws v
  have hRchars : ∀ c ∈ joinSep sep2 ((v :: ws).map renderElem), okC c := by
    apply joinSep_chars sep2_okC
    intro l hl c hc
    obtain ⟨u, hu, hul⟩ := List.mem_map.mp hl
    exact renderElem_chars (hok u hu) c (hul ▸ hc)
  have hRne : joinSep sep2 ((v :: ws).map renderElem) ≠ [] := by
    rw [hR]
    cases hre : renderElem v with
    | nil => exact absurd hre (renderElem_ne_nil (hok v (by simp)))
    | cons x l => simp
  have hinput : renderList (v :: ws) ++ rest =
      lBr :: (joinSep sep2 ((v :: ws).map renderElem) ++ rBr :: rest) := by
    rw [show renderList (v :: ws) =
      lBr :: joinSep sep2 ((v :: ws).map renderElem) ++ [rBr] from rfl]
    simp
  rw [hinput]
  have hq : ¬ ((lBr :: (joinSep sep2 ((v :: ws).map renderElem) ++ rBr :: rest)).head? =
      some qMark) := by
    rw [List.head?_cons]
    intro hcon
    exact absurd (Option.some.inj hcon) (by decide)
  have hnb : isNot1 rBr (joinSep sep2 ((v :: ws).map renderElem) ++ rBr :: rest) =
      some (joinSep sep2 ((v :: ws).map renderElem), rBr :: rest) :=
    isNot1_exact rest hRne (fun c hc => (hRchars c hc).1)
  have htrim : (joinSep sep2 ((v :: ws).map renderElem)).dropWhile Char.isWhitespace =
      joinSep sep2 ((v :: ws).map renderElem) := by
    rw [hR]
    cases hre : renderElem v with
    | nil => exact absurd hre (renderElem_ne_nil (hok v (by simp)))
    | cons x l =>
      rw [List.cons_append, List.dropWhile_cons]
      rw [if_neg (by
        rw [renderElem_head_not_ws (hok v (by simp)) (hh1 v rfl) x l hre]
        simp)]
  have hsl : sepList0 (parseArgF (g + 1))
      ((joinSep sep2 ((v :: ws).map renderElem)).dropWhile Char.isWhitespace) =
      some (v :: ws, []) := by
    rw [htrim]
    exact sepList_parse v ws g hok
  rw [parseArgF]
  rw [if_neg hq]
  rw [if_pos (by rw [List.head?_cons])]
  simp only [charP_cons, hnb, hsl]

theorem parseArgF_array_inv {fuel : Nat} {s : List Char} {vs : List AnnotArg}
    {r : List Char} (h : parseArgF fuel s = some (.Array vs, r)) :
    ∃ g s1 between s3 rem,
      fuel = g + 1 ∧ s = lBr :: s1 ∧
      between = s1.takeWhile (fun c => ¬ (c = rBr)) ∧
      s1.dropWhile (fun c => ¬ (c = rBr)) = rBr :: s3 ∧
      sepList0 (parseArgF g) (between.dropWhile Char.isWhitespace) =
        some (vs, rem) ∧
      r = s3 := by
  cases fuel with
  | zero => exact absurd h (by simp [parseArgF])
  | succ g =>
    unfold parseArgF at h
    split at h
    · -- string branch: cannot produce an Array
      split at h
      · exact absurd h (by simp)
      · rename_i v1 s1 hc1
        split at h
        · exact absurd h (by simp)
        · rename_i between s2 hn1
          split at h
          · exact absurd h (by simp)
          · rename_i v3 s3 hc3
            exact AnnotArg.noConfusion (someInj h).1
    · split at h
      · -- array branch
        split at h
        · exact absurd h (by simp)
        · rename_i v1 s1 hc1
          split at h
          · exact absurd h (by simp)
          · rename_i between s2 hn1
            split at h
            · exact absurd h (by simp)
            · rename_i v3 s3 hc3
              split at h
              · exact absurd h (by simp)
              · rename_i values rem hsl
                obtain ⟨h1, h2⟩ := someInj h
                have hvals : values = vs := by
                  injection h1
                subst hvals
                subst h2
                obtain ⟨hbt, hbd⟩ := isNot1_eq_some hn1
                refine ⟨g, s1, between, s3, rem, rfl, charP_eq_some hc1, hbt, ?_, hsl, rfl⟩
                rw [← hbd]
                exact charP_eq_some hc3
      · -- type-reference branch: cannot produce an Array
        split at h
        · exact absurd h (by simp)
        · rename_i name s1 htu
          split at h
          · exact absurd h (by simp)
          · rename_i v2 s2 htag
            exact AnnotArg.noConfusion (someInj h).1

theorem parse_annot_single_inv {t nm : List Char} {v : AnnotArg} {r : List Char}
    (h : parse_annot t = some (⟨nm, .Single v⟩, r)) :
    (∀ c ∈ nm, Char.isAlphanum c = true) ∧
    ∃ payload rem, parse_arg payload = some (v, rem) ∧
      (∀ c ∈ payload, ¬ c = rPar) ∧ (∀ c ∈ payload, ¬ c = eqC) := by
  unfold parse_annot at h
  split at h
  · exact absurd h (by simp)
  · rename_i v0 s1 htag
    simp only [takeWhileF] at h
    split at h
    · split at h
      · exact absurd h (by simp)
      · rename_i v4 s4 hc4
        split at h
        · exact absurd h (by simp)
        · rename_i payload s5 hn5
          split at h
          · exact absurd h (by simp)
          · rename_i v6 s6 hc6
            split at h
            · exact absurd h (by simp)
            · rename_i args rem0 hargs
              obtain ⟨h1, h2⟩ := someInj h
              rw [Annot.mk.injEq] at h1
              obtain ⟨hname, hargsv⟩ := h1
              subst hargsv
              constructor
              · intro c hc
                rw [← hname] at hc
                exact mem_takeWhile_pred hc
              · refine ⟨payload, ?_⟩
                unfold parse_args at hargs
                split at hargs
                · split at hargs
                  · rename_i m r2 hkv
                    exact AnnotArgs.noConfusion (someInj hargs).1
                  · exact absurd hargs (by simp)
                · rename_i hceq
                  split at hargs
                  · rename_i v2 r2 hpa
                    obtain ⟨hv2, hr2⟩ := someInj hargs
                    have hv2v : v2 = v := by injection hv2
                    refine ⟨r2, hv2v ▸ hpa, ?_, ?_⟩
                    · intro c hc
                      have hbt := (isNot1_eq_some hn5).1
                      rw [hbt] at hc
                      exact of_decide_eq_true (mem_takeWhile_pred hc)
                    · intro c hc hce
                      have hcf : payload.contains eqC = false := by
                        cases hb : payload.contains eqC with
                        | false => rfl
                        | true => exact absurd hb hceq
                      exact not_mem_of_contains_false hcf (hce ▸ hc)
                  · exact absurd hargs (by simp)
    · obtain ⟨h1, _⟩ := someInj h
      rw [Annot.mk.injEq] at h1
      exact AnnotArgs.noConfusion h1.2

theorem renderList_cons (vs : List AnnotArg) :
    renderList vs = lBr :: (joinSep sep2 (vs.map renderElem) ++ [rBr]) := rfl

/-- C8: round-trip.  Whenever an annotation text parses to a single array
payload with a non-empty element list, re-rendering the annotation
(string literals re-quoted, type references re-suffixed with `.class`,
elements comma-separated inside braces) and re-parsing it yields the very
same element sequence. -/
theorem claim_c8_roundtrip (t nm : List Char) (vs : List AnnotArg)
    (r : List Char)
    (h : parse_annot t = some (⟨nm, .Single (.Array vs)⟩, r))
    (hne : vs ≠ []) :
    parse_annot (renderAnnot nm vs) = some (⟨nm, .Single (.Array vs)⟩, []) := by
  obtain ⟨hnm, payload, rem, hpa, hnp, hneq⟩ := parse_annot_single_inv h
  unfold parse_arg at hpa
  obtain ⟨g, s1a, betA, s3a, remA, hfeq, hsA, hbetA, hdropA, hslA, hrA⟩ :=
    parseArgF_array_inv hpa
  have hokA : ∀ c ∈ betA.dropWhile Char.isWhitespace, okC c := by
    intro c hc
    have hc2 : c ∈ betA := (List.dropWhile_suffix _).sublist.subset hc
    have hc3 : c ∈ s1a := by
      rw [hbetA] at hc2
      exact (List.takeWhile_prefix _).sublist.subset hc2
    have hc4 : c ∈ payload := by
      rw [hsA]
      exact List.mem_cons_of_mem _ hc3
    refine ⟨?_, fun he => hnp c hc4 he, fun he => hneq c hc4 he⟩
    · have hc5 := hc2
      rw [hbetA] at hc5
      exact of_decide_eq_true (mem_takeWhile_pred hc5)
  have hwsA : ∀ x xs, betA.dropWhile Char.isWhitespace = x :: xs →
      ¬ x.isWhitespace = true := by
    intro x xs hx
    rw [dropWhile_head_not hx]
    simp
  obtain ⟨hokvs, hh1⟩ := sepListInv hslA hokA hwsA
  -- forward reconstruction
  have hRLne : renderList vs ≠ [] := by rw [renderList_cons]; simp
  have hRLchars : ∀ c ∈ renderList vs, (¬ c = rPar) ∧ (¬ c = eqC) := by
    intro c hc
    rw [renderList_cons] at hc
    rcases List.mem_cons.mp hc with rfl | hc2
    · exact ⟨by decide, by decide⟩
    · rcases List.mem_append.mp hc2 with hc3 | hc4
      · have := joinSep_chars sep2_okC (vs.map renderElem)
          (fun l hl d hd => by
            obtain ⟨u, hu, hul⟩ := List.mem_map.mp hl
            exact renderElem_chars (hokvs u hu) d (hul ▸ hd)) c hc3
        exact ⟨this.2.1, this.2.2⟩
      · rw [List.mem_singleton] at hc4
        subst hc4
        exact ⟨by decide, by decide⟩
  rw [show renderAnnot nm vs = atC :: (nm ++ (lPar :: (renderList vs ++ [rPar])))
    from by simp [renderAnnot]]
  have htag2 : tagP [atC] (atC :: (nm ++ (lPar :: (renderList vs ++ [rPar])))) =
      some ([atC], nm ++ (lPar :: (renderList vs ++ [rPar]))) := by
    simp [tagP, List.isPrefixOf]
  obtain ⟨htw, hdw⟩ := takeWhile_append_not Char.isAlphanum nm lPar
    (renderList vs ++ [rPar]) hnm (by decide)
  have hms : ms0 (lPar :: (renderList vs ++ [rPar])) =
      lPar :: (renderList vs ++ [rPar]) := by
    unfold ms0
    rw [List.dropWhile_cons, if_neg (by decide)]
  have hnotp : isNot1 rPar (renderList vs ++ [rPar]) =
      some (renderList vs, [rPar]) := by
    rw [show (renderList vs ++ [rPar] : List Char) = renderList vs ++ rPar :: [] from rfl]
    exact isNot1_exact [] hRLne (fun c hc => (hRLchars c hc).1)
  have hpargs : parse_args (renderList vs) = some (.Single (.Array vs), []) := by
    have hcf : (renderList vs).contains eqC = false :=
      contains_false_of_forall (fun c hc => (hRLchars c hc).2)
    have hpa2 : parse_arg (renderList vs) = some (.Array vs, []) := by
      unfold parse_arg
      rw [show (renderList vs).length + 1 =
          ((joinSep sep2 (vs.map renderElem)).length + 1) + 2 from by
        rw [renderList_cons]
        simp [List.length_cons, List.length_append]]
      have hrl := renderList_parse vs hne hokvs hh1 []
        ((joinSep sep2 (vs.map renderElem)).length + 1)
      rw [List.append_nil] at hrl
      exact hrl
    unfold parse_args
    rw [if_neg (by rw [hcf]; simp)]
    rw [hpa2]
  unfold parse_annot
  simp only [htag2, takeWhileF, htw, hdw, hms]
  rw [if_pos (by rw [List.head?_cons])]
  simp only [charP_cons, hnotp, hpargs]
  rfl

/-- C8 witness: the round-trip applied to the concrete annotation
`@MyAnnotation({"com.example", Foo.class})`. -/
theorem claim_c8_witness :
    parse_annot (renderAnnot (String.data "MyAnnotation")
      [.String (String.data "com.example"), .Class (String.data "Foo")]) =
      some (⟨String.data "MyAnnotation",
        .Single (.Array [.String (String.data "com.example"),
                         .Class (String.data "Foo")])⟩, []) :=
  claim_c8_roundtrip c8input (String.data "MyAnnotation")
    [.String (String.data "com.example"), .Class (String.data "Foo")] []
    (by rfl) (by simp)

end SV
